import Mathlib

/-!
Verification of the Chat Noir pursuit game (`chat-noir.js`).

The development shallowly embeds the algorithmic core of the source file:
the hex-grid graph built by `Board.createGraph`, the BFS distance engine
`Board.updateDistances`, the move policy `Board.nextStepForCat`, the turn
orchestration `Board.moveCat` / `Spot.handleClick`, and the module-level
`boundary` escape node.  JavaScript `Infinity` distances are embedded as
`none : Option Nat`; the process-wide random source is embedded as an
explicit choice parameter ranging over all values the source could draw.
-/

namespace ChatNoir

/-- A grid position `(x, y)`; spots in the source are keyed by `"x-y"`. -/
abbrev Pos := Int × Int

/-- Membership of a position in the constructed grid.  The `Board`
constructor creates a spot for every `0 ≤ x < width`, `0 ≤ y < height`
except the two superfluous corners `(0,0)` and `(0, height-1)`. -/
def inGrid (w h : Int) (p : Pos) : Bool :=
  0 ≤ p.1 && p.1 < w && 0 ≤ p.2 && p.2 < h &&
    !(p.1 == 0 && (p.2 == 0 || p.2 == h - 1))

/-- Candidate neighbours of a spot, exactly the two parity-dependent
six-element lists of `Board.createGraph` (even rows vs. odd rows),
in source order. -/
def cands (p : Pos) : List Pos :=
  if p.2 % 2 == 0 then
    [(p.1 - 1, p.2 - 1), (p.1, p.2 - 1), (p.1 - 1, p.2),
     (p.1 + 1, p.2), (p.1 - 1, p.2 + 1), (p.1, p.2 + 1)]
  else
    [(p.1, p.2 - 1), (p.1 + 1, p.2 - 1), (p.1 - 1, p.2),
     (p.1 + 1, p.2), (p.1, p.2 + 1), (p.1 + 1, p.2 + 1)]

/-- `spot.adjacent`: candidate neighbours that exist in the grid
(`cands.filter(neigh => neigh !== undefined)` in the source). -/
def adjacent (w h : Int) (p : Pos) : List Pos :=
  (cands p).filter (inGrid w h)

/-- The boundary test of `Board.createGraph`:
`x === 0 || y === 0 || x === width - 1 || y === height - 1`. -/
def onRing (w h : Int) (p : Pos) : Bool :=
  p.1 == 0 || p.2 == 0 || p.1 == w - 1 || p.2 == h - 1

/-- The spots of the grid in construction order (`y` outer, `x` inner,
skipping the two superfluous corners), which is also the iteration
order of `Object.values(this.grid)`. -/
def gridCells (w h : Int) : List Pos :=
  (List.range h.toNat).flatMap fun (y : Nat) =>
    (List.range w.toNat).filterMap fun (x : Nat) =>
      if x = 0 ∧ (y = 0 ∨ (y : Int) = h - 1) then none
      else some (((x : Nat) : Int), ((y : Nat) : Int))

/-- The spots pushed onto the escape node's adjacency list by one run of
`Board.createGraph` (every grid spot passing the boundary test, in
grid-iteration order). -/
def boundaryCells (w h : Int) : List Pos :=
  (gridCells w h).filter (onRing w h)

/-- Truthiness of `height % 2 && width % 2`, the condition tested by the
`console.assert` in the `Board` constructor. -/
def boardPreconditionHolds (height width : Int) : Bool :=
  height % 2 != 0 && width % 2 != 0

/-- The grid the `Board` constructor builds (it loops `y < height`,
`x < width` unconditionally; `console.assert` only logs on failure and
does not abort construction). -/
def constructGrid (height width : Int) : List Pos :=
  gridCells width height

theorem inGrid_iff {w h : Int} {a b : Int} :
    inGrid w h (a, b) = true ↔
      0 ≤ a ∧ a < w ∧ 0 ≤ b ∧ b < h ∧ ¬(a = 0 ∧ (b = 0 ∨ b = h - 1)) := by
  simp only [inGrid, Bool.and_eq_true, decide_eq_true_eq, Bool.not_eq_true',
    Bool.and_eq_false_iff, Bool.or_eq_false_iff, beq_eq_false_iff_ne, ne_eq]
  constructor
  · rintro ⟨⟨⟨⟨h1, h2⟩, h3⟩, h4⟩, h5⟩
    refine ⟨h1, h2, h3, h4, ?_⟩
    rintro ⟨rfl, hb⟩
    rcases h5 with h5 | ⟨h5, h6⟩
    · exact h5 rfl
    · rcases hb with hb | hb
      · exact h5 hb
      · exact h6 hb
  · rintro ⟨h1, h2, h3, h4, h5⟩
    refine ⟨⟨⟨⟨h1, h2⟩, h3⟩, h4⟩, ?_⟩
    by_cases ha : a = 0
    · subst ha
      right
      constructor
      · intro hb; exact h5 ⟨rfl, Or.inl hb⟩
      · intro hb; exact h5 ⟨rfl, Or.inr hb⟩
    · exact Or.inl ha

theorem mem_gridCells {w h : Int} {p : Pos} :
    p ∈ gridCells w h ↔ inGrid w h p = true := by
  obtain ⟨a, b⟩ := p
  rw [inGrid_iff]
  simp only [gridCells, List.mem_flatMap, List.mem_filterMap, List.mem_range]
  constructor
  · rintro ⟨y, hy, x, hx, he⟩
    rw [ite_eq_iff] at he
    rcases he with ⟨-, he⟩ | ⟨hc, he⟩
    · exact absurd he (by simp)
    · rw [Option.some.injEq, Prod.mk.injEq] at he
      obtain ⟨hxa, hyb⟩ := he
      push_neg at hc
      omega
  · rintro ⟨h1, h2, h3, h4, h5⟩
    refine ⟨b.toNat, by omega, a.toNat, by omega, ?_⟩
    rw [ite_eq_iff]
    right
    constructor
    · push_neg
      intro hx0
      constructor
      · omega
      · omega
    · rw [Option.some.injEq, Prod.mk.injEq]
      omega

theorem nodup_gridCells (w h : Int) : (gridCells w h).Nodup := by
  rw [gridCells, List.nodup_flatMap]
  constructor
  · intro y _
    apply List.Nodup.filterMap
    · intro x1 x2 p hp1 hp2
      rw [Option.mem_def, ite_eq_iff] at hp1 hp2
      rcases hp1 with ⟨-, hp1⟩ | ⟨-, hp1⟩
      · exact absurd hp1 (by simp)
      rcases hp2 with ⟨-, hp2⟩ | ⟨-, hp2⟩
      · exact absurd hp2 (by simp)
      rw [Option.some.injEq] at hp1 hp2
      have := hp1.trans hp2.symm
      rw [Prod.mk.injEq] at this
      omega
    · exact List.nodup_range _
  · have hpw : (List.range h.toNat).Pairwise (· < ·) := List.pairwise_lt_range _
    refine hpw.imp ?_
    intro y1 y2 hlt p hp1 hp2
    simp only [List.mem_filterMap, List.mem_range] at hp1 hp2
    obtain ⟨x1, -, he1⟩ := hp1
    obtain ⟨x2, -, he2⟩ := hp2
    rw [ite_eq_iff] at he1 he2
    rcases he1 with ⟨-, he1⟩ | ⟨-, he1⟩
    · exact absurd he1 (by simp)
    rcases he2 with ⟨-, he2⟩ | ⟨-, he2⟩
    · exact absurd he2 (by simp)
    rw [Option.some.injEq, Prod.mk.injEq] at he1 he2
    omega

set_option maxHeartbeats 1000000 in
theorem cands_symm (p q : Pos) : q ∈ cands p ↔ p ∈ cands q := by
  obtain ⟨a, b⟩ := p
  obtain ⟨c, d⟩ := q
  simp only [cands]
  rcases Int.emod_two_eq b with hb | hb <;> rcases Int.emod_two_eq d with hd | hd <;>
    rw [hb, hd] <;>
    simp only [show ((0 : Int) == 0) = true by decide,
      show ((1 : Int) == 0) = false by decide, if_true, Bool.false_eq_true, if_false,
      List.mem_cons, List.not_mem_nil, or_false, Prod.mk.injEq] <;>
    omega

/-- C6: after graph construction the cell-to-cell adjacency relation is
symmetric: for grid cells `A` and `B`, `B ∈ A.adjacent` iff
`A ∈ B.adjacent`, with the parity-dependent candidate lists and the two
superfluous corners excluded from the grid. -/
theorem C6_adjacency_symmetric (w h : Int) (p q : Pos)
    (hp : inGrid w h p = true) (hq : inGrid w h q = true) :
    q ∈ adjacent w h p ↔ p ∈ adjacent w h q := by
  simp only [adjacent, List.mem_filter]
  rw [cands_symm]
  simp [hp, hq]

/-- Witness for `C6_adjacency_symmetric` at the 11x11 board of the source:
cells (3,4) and (4,4) are mutually adjacent. -/
theorem C6_adjacency_symmetric_witness :
    inGrid 11 11 ((3 : Int), (4 : Int)) = true ∧
      inGrid 11 11 ((4 : Int), (4 : Int)) = true ∧
      (((4 : Int), (4 : Int)) ∈ adjacent 11 11 ((3 : Int), (4 : Int)) ↔
        ((3 : Int), (4 : Int)) ∈ adjacent 11 11 ((4 : Int), (4 : Int))) :=
  ⟨by decide, by decide,
    C6_adjacency_symmetric 11 11 ((3 : Int), (4 : Int)) ((4 : Int), (4 : Int))
      (by decide) (by decide)⟩

/-- C5: the escape node's adjacency list after one run of `createGraph`
is duplicate-free, and a cell is a member exactly when it is a grid cell
on the outer ring (`x = 0` or `y = 0` or `x = width - 1` or
`y = height - 1`): so every such cell appears exactly once and no other
cell appears at all. -/
theorem C5_boundary_completeness (w h : Int) :
    (boundaryCells w h).Nodup ∧
      ∀ p : Pos, p ∈ boundaryCells w h ↔
        (inGrid w h p = true ∧ onRing w h p = true) := by
  constructor
  · exact (nodup_gridCells w h).filter _
  · intro p
    rw [boundaryCells, List.mem_filter, mem_gridCells]

/-- C4 is a code bug: the spec requires construction to fail fast when
height or width is even, but `console.assert` in the source only logs and
the constructor proceeds.  At height = width = 4 the asserted precondition
is false, yet the full 4x4 grid (16 spots minus the two superfluous
corners, i.e. 14 spots) is still built. -/
theorem C4_even_dims_construction_proceeds :
    boardPreconditionHolds 4 4 = false ∧ constructGrid 4 4 ≠ [] ∧
      (constructGrid 4 4).length = 14 := by
  refine ⟨by decide, by decide, by decide⟩

/-! ### The Distance Engine (`Board.updateDistances`)

The source BFS works over the grid spots plus the single escape node.
Grid adjacency lists never contain the escape node, so the escape node is
dequeued exactly once, first; we embed the loop as: one expansion of the
escape node's adjacency list (`seed`) at distance 0, followed by the plain
BFS loop over grid nodes.  A queue entry carries the `distance` value the
spot's field held when it was pushed; the field is never reassigned
between push and pop, so this is faithful.  The node type is kept generic
so that the engine can also be read over tagged cells of several boards. -/

/-- State of the BFS loop: assigned `distance` fields (`none` embeds
`Infinity`), the `seen` set, and the `toVisit` FIFO queue. -/
structure BfsState (α : Type) where
  dist : α → Option Nat
  seen : List α
  queue : List (α × Nat)

/-- One iteration of the inner `for (let n of spot.adjacent)` loop:
skip `n` when already seen or blocked, otherwise mark it seen, assign
`distance = dp + 1`, and push it to the back of the queue. -/
def visitNeighbor {α : Type} [DecidableEq α] (blocked : α → Bool) (dp : Nat)
    (s : BfsState α) (n : α) : BfsState α :=
  if n ∈ s.seen ∨ blocked n = true then s
  else { dist := fun q => if q = n then some (dp + 1) else s.dist q,
         seen := n :: s.seen,
         queue := s.queue ++ [(n, dp + 1)] }

/-- The inner loop over a popped node's full adjacency list. -/
def expand {α : Type} [DecidableEq α] (blocked : α → Bool) (ns : List α)
    (dp : Nat) (s : BfsState α) : BfsState α :=
  ns.foldl (visitNeighbor blocked dp) s

/-- The outer `while (toVisit.length > 0)` loop, with explicit fuel; the
fuel used in `bfsFrom` is proved large enough for the queue to empty. -/
def bfsRun {α : Type} [DecidableEq α] (adj : α → List α) (blocked : α → Bool) :
    Nat → BfsState α → BfsState α
  | 0, s => s
  | fuel + 1, s =>
    match s.queue with
    | [] => s
    | (p, dp) :: rest =>
      bfsRun adj blocked fuel (expand blocked (adj p) dp { s with queue := rest })

/-- Full `updateDistances` run: all distances reset to `Infinity`, the
escape node (distance 0, adjacency `seed`) expanded first, then the loop. -/
def bfsFrom {α : Type} [DecidableEq α] (adj : α → List α) (blocked : α → Bool)
    (seed : List α) (fuel : Nat) : α → Option Nat :=
  (bfsRun adj blocked fuel (expand blocked seed 0 ⟨fun _ => none, [], []⟩)).dist

/-- Hop-paths from the escape node through unblocked nodes: the escape
node's adjacencies (the `seed`) are one hop away, and each traversal of an
`adj` edge to an unblocked node adds one hop. -/
inductive ReachIn {α : Type} (adj : α → List α) (blocked : α → Bool)
    (seed : List α) : α → Nat → Prop
  | seedHop {p : α} : p ∈ seed → blocked p = false →
      ReachIn adj blocked seed p 1
  | edgeHop {p q : α} {n : Nat} : ReachIn adj blocked seed q n → p ∈ adj q →
      blocked p = false → ReachIn adj blocked seed p (n + 1)

theorem ReachIn_blocked_false {α : Type} {adj : α → List α} {blocked : α → Bool}
    {seed : List α} {p : α} {n : Nat}
    (hr : ReachIn adj blocked seed p n) : blocked p = false := by
  cases hr with
  | seedHop _ hb => exact hb
  | edgeHop _ _ hb => exact hb

/-- Everything one expansion (`expand blocked ns dp s`) guarantees,
relative to the pre-state `s`. -/
structure ExpandFacts {α : Type} [DecidableEq α] (blocked : α → Bool) (dp : Nat)
    (ns : List α) (s s' : BfsState α) : Prop where
  dist_mono : ∀ p v, s.dist p = some v → s'.dist p = some v
  dist_new : ∀ p v, s'.dist p = some v →
      s.dist p = some v ∨ (v = dp + 1 ∧ p ∈ ns ∧ blocked p = false)
  dist_seen : ∀ p, (s'.dist p).isSome = true ↔ p ∈ s'.seen
  seen_nodup : s'.seen.Nodup
  seen_mono : ∀ p, p ∈ s.seen → p ∈ s'.seen
  seen_new : ∀ p, p ∈ s'.seen → p ∈ s.seen ∨ p ∈ ns
  queue_ext : ∃ ps, s'.queue = s.queue ++ ps ∧
      (∀ e ∈ ps, e.2 = dp + 1 ∧ e.1 ∉ s.seen) ∧
      (∀ p, p ∈ s'.seen → p ∈ s.seen ∨ (p, dp + 1) ∈ ps)
  queue_dist : ∀ p v, (p, v) ∈ s'.queue → s'.dist p = some v
  queue_nodup : (s'.queue.map Prod.fst).Nodup
  covered : ∀ p ∈ ns, blocked p = false → p ∈ s'.seen
  count : s'.seen.length + s.queue.length = s.seen.length + s'.queue.length

theorem expand_facts {α : Type} [DecidableEq α] (blocked : α → Bool) (dp : Nat) :
    ∀ (ns : List α) (s : BfsState α),
      (∀ p, (s.dist p).isSome = true ↔ p ∈ s.seen) →
      s.seen.Nodup →
      (∀ p v, (p, v) ∈ s.queue → s.dist p = some v) →
      (s.queue.map Prod.fst).Nodup →
      ExpandFacts blocked dp ns s (expand blocked ns dp s) := by
  intro ns
  induction ns with
  | nil =>
    intro s hds hnd hqd hqn
    have hnil : expand blocked [] dp s = s := rfl
    rw [hnil]
    exact ⟨fun p v hv => hv, fun p v hv => Or.inl hv, hds, hnd, fun p hp => hp,
      fun p hp => Or.inl hp,
      ⟨[], by simp, by simp, fun p hp => Or.inl hp⟩,
      hqd, hqn, fun p hp hb => absurd hp (List.not_mem_nil p), rfl⟩
  | cons n ns ih =>
    intro s hds hnd hqd hqn
    by_cases hskip : n ∈ s.seen ∨ blocked n = true
    · have hstep : expand blocked (n :: ns) dp s = expand blocked ns dp s := by
        simp only [expand, List.foldl_cons, visitNeighbor, if_pos hskip]
      rw [hstep]
      have ef := ih s hds hnd hqd hqn
      refine ⟨ef.dist_mono, ?_, ef.dist_seen, ef.seen_nodup, ef.seen_mono, ?_, ?_,
        ef.queue_dist, ef.queue_nodup, ?_, ef.count⟩
      · intro p v hv
        rcases ef.dist_new p v hv with h1 | ⟨h1, h2, h3⟩
        · exact Or.inl h1
        · exact Or.inr ⟨h1, List.mem_cons_of_mem _ h2, h3⟩
      · intro p hp
        rcases ef.seen_new p hp with h1 | h1
        · exact Or.inl h1
        · exact Or.inr (List.mem_cons_of_mem _ h1)
      · obtain ⟨ps, he, hall, hseen⟩ := ef.queue_ext
        exact ⟨ps, he, hall, hseen⟩
      · intro p hp hb
        rcases List.mem_cons.mp hp with rfl | hp'
        · rcases hskip with hsk | hsk
          · exact ef.seen_mono _ hsk
          · rw [hb] at hsk; exact absurd hsk (by simp)
        · exact ef.covered p hp' hb
    · have hn_seen : n ∉ s.seen := fun hc => hskip (Or.inl hc)
      have hn_bl : blocked n = false := by
        cases hbn : blocked n
        · rfl
        · exact absurd (Or.inr hbn) hskip
      set s1 : BfsState α :=
        ⟨fun q => if q = n then some (dp + 1) else s.dist q,
          n :: s.seen, s.queue ++ [(n, dp + 1)]⟩ with hs1
      have hstep : expand blocked (n :: ns) dp s = expand blocked ns dp s1 := by
        simp only [expand, List.foldl_cons, visitNeighbor, if_neg hskip]
      have hd1 : ∀ p, s1.dist p = if p = n then some (dp + 1) else s.dist p :=
        fun p => rfl
      have hnd1 : ∀ p, (s1.dist p).isSome = true ↔ p ∈ s1.seen := by
        intro p
        rw [hd1]
        by_cases hpn : p = n
        · rw [if_pos hpn, hs1]
          simp [hpn]
        · rw [if_neg hpn, hds p, hs1]
          simp only [List.mem_cons]
          exact ⟨Or.inr, fun hp => hp.elim (fun hc => absurd hc hpn) id⟩
      have hsn1 : s1.seen.Nodup := List.nodup_cons.mpr ⟨hn_seen, hnd⟩
      have hq1 : s1.queue = s.queue ++ [(n, dp + 1)] := rfl
      have hqd1 : ∀ p v, (p, v) ∈ s1.queue → s1.dist p = some v := by
        intro p v hpv
        rw [hq1] at hpv
        rw [hd1]
        rcases List.mem_append.mp hpv with hold | hnew
        · by_cases hpn : p = n
          · rw [hpn] at hold
            have hmem := (hds n).mp (by rw [hqd _ _ hold]; rfl)
            exact absurd hmem hn_seen
          · rw [if_neg hpn]
            exact hqd _ _ hold
        · have h2 := List.mem_singleton.mp hnew
          rw [Prod.mk.injEq] at h2
          rw [if_pos h2.1, h2.2]
      have hqn1 : (s1.queue.map Prod.fst).Nodup := by
        have hqm : s1.queue.map Prod.fst = s.queue.map Prod.fst ++ [n] := by
          rw [hq1]; simp
        rw [hqm, List.nodup_append]
        refine ⟨hqn, List.nodup_singleton n, ?_⟩
        intro x hx hx2
        rw [List.mem_singleton] at hx2
        obtain ⟨⟨q, v⟩, hqv, hq⟩ := List.mem_map.mp hx
        have hq2 : q = n := by rw [← hx2]; exact hq
        rw [hq2] at hqv
        have hmem := (hds n).mp (by rw [hqd _ _ hqv]; rfl)
        exact hn_seen hmem
      rw [hstep]
      have ef := ih s1 hnd1 hsn1 hqd1 hqn1
      have hseen1 : s1.seen = n :: s.seen := rfl
      have hmono1 : ∀ p v, s.dist p = some v → s1.dist p = some v := by
        intro p v hv
        rw [hd1]
        by_cases hpn : p = n
        · rw [hpn] at hv
          have hmem := (hds n).mp (by rw [hv]; rfl)
          exact absurd hmem hn_seen
        · rw [if_neg hpn]
          exact hv
      refine ⟨?_, ?_, ef.dist_seen, ef.seen_nodup, ?_, ?_, ?_, ef.queue_dist,
        ef.queue_nodup, ?_, ?_⟩
      · intro p v hv
        exact ef.dist_mono p v (hmono1 p v hv)
      · intro p v hv
        rcases ef.dist_new p v hv with h1 | ⟨h1, h2, h3⟩
        · rw [hd1] at h1
          by_cases hpn : p = n
          · rw [if_pos hpn] at h1
            have hv1 : v = dp + 1 := (Option.some.injEq _ _ ▸ h1).symm
            exact Or.inr ⟨hv1, by rw [hpn]; exact List.mem_cons_self _ _,
              by rw [hpn]; exact hn_bl⟩
          · rw [if_neg hpn] at h1
            exact Or.inl h1
        · exact Or.inr ⟨h1, List.mem_cons_of_mem _ h2, h3⟩
      · intro p hp
        exact ef.seen_mono p (by rw [hseen1]; exact List.mem_cons_of_mem _ hp)
      · intro p hp
        rcases ef.seen_new p hp with h1 | h1
        · rw [hseen1] at h1
          rcases List.mem_cons.mp h1 with rfl | h2
          · exact Or.inr (List.mem_cons_self _ _)
          · exact Or.inl h2
        · exact Or.inr (List.mem_cons_of_mem _ h1)
      · obtain ⟨ps, he, hall, hseen⟩ := ef.queue_ext
        refine ⟨(n, dp + 1) :: ps, ?_, ?_, ?_⟩
        · rw [he, hq1, List.append_assoc]
          rfl
        · intro e he'
          rcases List.mem_cons.mp he' with rfl | he''
          · exact ⟨rfl, hn_seen⟩
          · obtain ⟨h1, h2⟩ := hall e he''
            refine ⟨h1, fun hc => h2 ?_⟩
            rw [hseen1]
            exact List.mem_cons_of_mem _ hc
        · intro p hp
          rcases hseen p hp with h1 | h1
          · rw [hseen1] at h1
            rcases List.mem_cons.mp h1 with rfl | h2
            · exact Or.inr (List.mem_cons_self _ _)
            · exact Or.inl h2
          · exact Or.inr (List.mem_cons_of_mem _ h1)
      · intro p hp hb
        rcases List.mem_cons.mp hp with rfl | hp'
        · exact ef.seen_mono p (by rw [hseen1]; exact List.mem_cons_self _ _)
        · exact ef.covered p hp' hb
      · have h1 : s1.seen.length = s.seen.length + 1 := by rw [hseen1]; rfl
        have h2 : s1.queue.length = s.queue.length + 1 := by
          rw [hq1, List.length_append]
          rfl
        have := ef.count
        omega

/-- The loop invariant of the BFS: distances are assigned exactly to seen
nodes, every assigned distance is realised by a hop-path, queue entries
carry their assigned distances, queue positions are distinct, the queue
holds a two-level frontier bounding every assigned distance, and every
seen node no longer in the queue has all unblocked neighbours seen at
distance at most one more. -/
structure BfsInv {α : Type} [DecidableEq α] (adj : α → List α)
    (blocked : α → Bool) (seed : List α) (s : BfsState α) : Prop where
  seen_nodup : s.seen.Nodup
  dist_seen : ∀ p, (s.dist p).isSome = true ↔ p ∈ s.seen
  sound : ∀ p v, s.dist p = some v → ReachIn adj blocked seed p v
  queue_dist : ∀ p v, (p, v) ∈ s.queue → s.dist p = some v
  queue_nodup : (s.queue.map Prod.fst).Nodup
  frontier : ∃ d a b, s.queue.map Prod.snd =
      List.replicate a d ++ List.replicate b (d + 1) ∧
      ∀ p v, s.dist p = some v → v ≤ d + 1
  processed : ∀ q ∈ s.seen, q ∉ s.queue.map Prod.fst →
      ∀ p ∈ adj q, blocked p = false →
        ∃ dq dv, s.dist q = some dq ∧ s.dist p = some dv ∧ dv ≤ dq + 1

theorem bfsInv_step {α : Type} [DecidableEq α] {adj : α → List α}
    {blocked : α → Bool} {seed : List α} {s : BfsState α}
    (hinv : BfsInv adj blocked seed s) {p₁ : α} {d₁ : Nat}
    {rest : List (α × Nat)} (hq : s.queue = (p₁, d₁) :: rest) :
    BfsInv adj blocked seed
        (expand blocked (adj p₁) d₁ ⟨s.dist, s.seen, rest⟩) ∧
      ExpandFacts blocked d₁ (adj p₁) ⟨s.dist, s.seen, rest⟩
        (expand blocked (adj p₁) d₁ ⟨s.dist, s.seen, rest⟩) := by
  set smid : BfsState α := ⟨s.dist, s.seen, rest⟩ with hsmid
  have hrest_sub : ∀ e, e ∈ rest → e ∈ s.queue := by
    intro e he
    rw [hq]
    exact List.mem_cons_of_mem _ he
  have hqd_mid : ∀ p v, (p, v) ∈ smid.queue → smid.dist p = some v :=
    fun p v hpv => hinv.queue_dist p v (hrest_sub _ hpv)
  have hqfst : s.queue.map Prod.fst = p₁ :: rest.map Prod.fst := by
    rw [hq]; rfl
  have hqn_mid : (smid.queue.map Prod.fst).Nodup := by
    have := hinv.queue_nodup
    rw [hqfst] at this
    exact (List.nodup_cons.mp this).2
  have hp₁_notin_rest : p₁ ∉ rest.map Prod.fst := by
    have := hinv.queue_nodup
    rw [hqfst] at this
    exact (List.nodup_cons.mp this).1
  have ef := expand_facts blocked d₁ (adj p₁) smid hinv.dist_seen
    hinv.seen_nodup hqd_mid hqn_mid
  set s2 : BfsState α := expand blocked (adj p₁) d₁ smid with hs2
  have hd₁ : s.dist p₁ = some d₁ :=
    hinv.queue_dist p₁ d₁ (by rw [hq]; exact List.mem_cons_self _ _)
  have hr₁ : ReachIn adj blocked seed p₁ d₁ := hinv.sound _ _ hd₁
  obtain ⟨d, a, b, hshape, hbound⟩ := hinv.frontier
  have hsnd : s.queue.map Prod.snd = d₁ :: rest.map Prod.snd := by
    rw [hq]; rfl
  -- the head distance is either the frontier base or the base plus one
  have hhead : (d₁ = d ∧ rest.map Prod.snd =
        List.replicate (a - 1) d ++ List.replicate b (d + 1) ∧ 1 ≤ a) ∨
      (d₁ = d + 1 ∧ rest.map Prod.snd = List.replicate (b - 1) (d + 1) ∧
        a = 0 ∧ 1 ≤ b) := by
    rcases a with - | a0
    · rcases b with - | b0
      · rw [hsnd] at hshape
        exact absurd hshape (by simp)
      · rw [hsnd, List.replicate, List.nil_append, List.replicate_succ] at hshape
        obtain ⟨h1, h2⟩ := List.cons.injEq _ _ _ _ ▸ hshape
        exact Or.inr ⟨h1, by rw [h2]; simp, rfl, by omega⟩
    · rw [hsnd, List.replicate_succ, List.cons_append] at hshape
      obtain ⟨h1, h2⟩ := List.cons.injEq _ _ _ _ ▸ hshape
      exact Or.inl ⟨h1, by rw [h2]; simp, by omega⟩
  have hble : ∀ p v, s.dist p = some v → v ≤ d₁ + 1 := by
    intro p v hv
    have := hbound p v hv
    rcases hhead with ⟨h1, -, -⟩ | ⟨h1, -, -⟩ <;> omega
  obtain ⟨ps, hps_eq, hps_all, hps_seen⟩ := ef.queue_ext
  have hps_snd : ps.map Prod.snd = List.replicate ps.length (d₁ + 1) := by
    have h1 : ∀ x ∈ ps.map Prod.snd, x = d₁ + 1 := by
      intro x hx
      obtain ⟨e, he, hex⟩ := List.mem_map.mp hx
      rw [← hex]
      exact (hps_all e he).1
    have h2 := List.eq_replicate_of_mem h1
    rw [List.length_map] at h2
    exact h2
  have hsound2 : ∀ p v, s2.dist p = some v → ReachIn adj blocked seed p v := by
    intro p v hv
    rcases ef.dist_new p v hv with h1 | ⟨h1, h2, h3⟩
    · exact hinv.sound p v h1
    · rw [h1]
      exact ReachIn.edgeHop hr₁ h2 h3
  refine ⟨⟨ef.seen_nodup, ef.dist_seen, hsound2, ef.queue_dist, ef.queue_nodup,
    ?_, ?_⟩, ef⟩
  · -- the new frontier
    have hq2snd : s2.queue.map Prod.snd =
        rest.map Prod.snd ++ List.replicate ps.length (d₁ + 1) := by
      rw [hps_eq]
      simp only [List.map_append]
      rw [hps_snd]
    rcases hhead with ⟨hd₁d, hrest, -⟩ | ⟨hd₁d, hrest, -, -⟩
    · refine ⟨d, a - 1, b + ps.length, ?_, ?_⟩
      · rw [hq2snd, hrest, hd₁d, List.append_assoc, ← List.replicate_add]
      · intro p v hv
        rcases ef.dist_new p v hv with h1 | ⟨h1, -, -⟩
        · exact hbound p v h1
        · omega
    · refine ⟨d + 1, b - 1, ps.length, ?_, ?_⟩
      · rw [hq2snd, hrest, hd₁d]
      · intro p v hv
        rcases ef.dist_new p v hv with h1 | ⟨h1, -, -⟩
        · have := hbound p v h1
          omega
        · omega
  · -- processed-closure
    intro q hq_seen hq_notin p hp hbp
    have hq_old : q ∈ s.seen := by
      rcases hps_seen q hq_seen with h1 | h1
      · exact h1
      · exfalso
        apply hq_notin
        rw [hps_eq]
        rw [List.map_append]
        exact List.mem_append_right _ (List.mem_map.mpr ⟨(q, d₁ + 1), h1, rfl⟩)
    by_cases hqp₁ : q = p₁
    · have hdq2 : s2.dist q = some d₁ := by
        rw [hqp₁]
        exact ef.dist_mono p₁ d₁ hd₁
      have hp' : p ∈ adj p₁ := by rw [← hqp₁]; exact hp
      have hp_seen : p ∈ s2.seen := ef.covered p hp' hbp
      have hp_some : (s2.dist p).isSome = true := (ef.dist_seen p).mpr hp_seen
      obtain ⟨dv, hdv⟩ := Option.isSome_iff_exists.mp hp_some
      refine ⟨d₁, dv, hdq2, hdv, ?_⟩
      rcases ef.dist_new p dv hdv with h1 | ⟨h1, -, -⟩
      · exact hble p dv h1
      · omega
    · have hq_notin_s : q ∉ s.queue.map Prod.fst := by
        rw [hqfst]
        intro hc
        rcases List.mem_cons.mp hc with h1 | h1
        · exact hqp₁ h1
        · apply hq_notin
          rw [hps_eq, List.map_append]
          exact List.mem_append_left _ h1
      obtain ⟨dq, dv, h1, h2, h3⟩ :=
        hinv.processed q hq_old hq_notin_s p hp hbp
      exact ⟨dq, dv, ef.dist_mono q dq h1, ef.dist_mono p dv h2, h3⟩

theorem nodup_subset_length_le {α : Type} [DecidableEq α] {l U : List α}
    (hnd : l.Nodup) (hsub : ∀ p ∈ l, p ∈ U) : l.length ≤ U.length := by
  calc l.length = l.toFinset.card := (List.toFinset_card_of_nodup hnd).symm
    _ ≤ U.toFinset.card := Finset.card_le_card
        (fun x hx => List.mem_toFinset.mpr (hsub x (List.mem_toFinset.mp hx)))
    _ ≤ U.length := List.toFinset_card_le U

theorem bfsRun_inv {α : Type} [DecidableEq α] {adj : α → List α}
    {blocked : α → Bool} {seed : List α} :
    ∀ (fuel : Nat) (s : BfsState α), BfsInv adj blocked seed s →
      BfsInv adj blocked seed (bfsRun adj blocked fuel s) ∧
      (∀ p v, s.dist p = some v → (bfsRun adj blocked fuel s).dist p = some v) := by
  intro fuel
  induction fuel with
  | zero =>
    intro s hinv
    exact ⟨hinv, fun p v hv => hv⟩
  | succ fuel ih =>
    intro s hinv
    rcases hq : s.queue with - | ⟨⟨p₁, d₁⟩, rest⟩
    · have hrun : bfsRun adj blocked (fuel + 1) s = s := by
        rw [bfsRun, hq]
      rw [hrun]
      exact ⟨hinv, fun p v hv => hv⟩
    · have hrun : bfsRun adj blocked (fuel + 1) s =
          bfsRun adj blocked fuel
            (expand blocked (adj p₁) d₁ ⟨s.dist, s.seen, rest⟩) := by
        rw [bfsRun, hq]
      obtain ⟨hinv2, ef⟩ := bfsInv_step hinv hq
      obtain ⟨hinvF, hmono⟩ := ih _ hinv2
      rw [hrun]
      exact ⟨hinvF, fun p v hv => hmono p v (ef.dist_mono p v hv)⟩

theorem bfsRun_terminates {α : Type} [DecidableEq α] {adj : α → List α}
    {blocked : α → Bool} {seed : List α} (U : List α)
    (hadjU : ∀ q, ∀ r ∈ adj q, r ∈ U) :
    ∀ (fuel : Nat) (s : BfsState α), BfsInv adj blocked seed s →
      (∀ p ∈ s.seen, p ∈ U) →
      s.queue.length + (U.length - s.seen.length) ≤ fuel →
      (bfsRun adj blocked fuel s).queue = [] := by
  intro fuel
  induction fuel with
  | zero =>
    intro s _ _ hmeas
    have hz : s.queue.length = 0 := by omega
    have : bfsRun adj blocked 0 s = s := rfl
    rw [this]
    exact List.length_eq_zero.mp hz
  | succ fuel ih =>
    intro s hinv hseenU hmeas
    rcases hq : s.queue with - | ⟨⟨p₁, d₁⟩, rest⟩
    · have hrun : bfsRun adj blocked (fuel + 1) s = s := by
        rw [bfsRun, hq]
      rw [hrun]
      exact hq
    · have hrun : bfsRun adj blocked (fuel + 1) s =
          bfsRun adj blocked fuel
            (expand blocked (adj p₁) d₁ ⟨s.dist, s.seen, rest⟩) := by
        rw [bfsRun, hq]
      obtain ⟨hinv2, ef⟩ := bfsInv_step hinv hq
      set s2 : BfsState α := expand blocked (adj p₁) d₁ ⟨s.dist, s.seen, rest⟩
        with hs2
      have hseenU2 : ∀ p ∈ s2.seen, p ∈ U := by
        intro p hp
        rcases ef.seen_new p hp with h1 | h1
        · exact hseenU p h1
        · exact hadjU p₁ p h1
      have hcount : s2.seen.length + rest.length =
          s.seen.length + s2.queue.length := ef.count
      obtain ⟨ps, hps_eq, -, -⟩ := ef.queue_ext
      have hq2len : s2.queue.length = rest.length + ps.length := by
        rw [hps_eq, List.length_append]
      have hseen2len : s2.seen.length ≤ U.length :=
        nodup_subset_length_le hinv2.seen_nodup hseenU2
      have hqlen : s.queue.length = rest.length + 1 := by
        rw [hq]
        rfl
      have hmeas2 : s2.queue.length + (U.length - s2.seen.length) ≤ fuel := by
        omega
      rw [hrun]
      exact ih s2 hinv2 hseenU2 hmeas2

theorem bfsInit_inv {α : Type} [DecidableEq α] (adj : α → List α)
    (blocked : α → Bool) (seed : List α) :
    BfsInv adj blocked seed
        (expand blocked seed 0 ⟨fun _ => none, [], []⟩) ∧
      ExpandFacts blocked 0 seed ⟨fun _ => none, [], []⟩
        (expand blocked seed 0 ⟨fun _ => none, [], []⟩) := by
  have ef := expand_facts blocked 0 seed ⟨fun _ => none, [], []⟩
    (by intro p; simp) (by simp)
    (by intro p v hv; exact absurd hv (List.not_mem_nil _)) (by simp)
  have hnew : ∀ p v,
      (expand blocked seed 0 ⟨fun _ => none, [], []⟩).dist p = some v →
      v = 1 ∧ p ∈ seed ∧ blocked p = false := by
    intro p v hv
    rcases ef.dist_new p v hv with h1 | ⟨h1, h2, h3⟩
    · exact absurd h1 (by simp)
    · exact ⟨h1, h2, h3⟩
  obtain ⟨ps, hps_eq, hps_all, hps_seen⟩ := ef.queue_ext
  refine ⟨⟨ef.seen_nodup, ef.dist_seen, ?_, ef.queue_dist, ef.queue_nodup,
    ?_, ?_⟩, ef⟩
  · intro p v hv
    obtain ⟨h1, h2, h3⟩ := hnew p v hv
    rw [h1]
    exact ReachIn.seedHop h2 h3
  · refine ⟨0, 0, ps.length, ?_, ?_⟩
    · rw [hps_eq]
      have h1 : ∀ x ∈ ps.map Prod.snd, x = 1 := by
        intro x hx
        obtain ⟨e, he, hex⟩ := List.mem_map.mp hx
        rw [← hex]
        exact (hps_all e he).1
      have h2 := List.eq_replicate_of_mem h1
      rw [List.length_map] at h2
      simpa using h2
    · intro p v hv
      obtain ⟨h1, -, -⟩ := hnew p v hv
      omega
  · intro q hq_seen hq_notin p hp hbp
    exfalso
    rcases hps_seen q hq_seen with h1 | h1
    · exact absurd h1 (List.not_mem_nil q)
    · apply hq_notin
      rw [hps_eq]
      exact List.mem_map.mpr ⟨(q, 0 + 1), by simpa using h1, rfl⟩

theorem bfsFrom_sound {α : Type} [DecidableEq α] {adj : α → List α}
    {blocked : α → Bool} {seed : List α} {fuel : Nat} {p : α} {v : Nat}
    (hv : bfsFrom adj blocked seed fuel p = some v) :
    ReachIn adj blocked seed p v := by
  obtain ⟨hinv1, -⟩ := bfsInit_inv adj blocked seed
  obtain ⟨hinvF, -⟩ := bfsRun_inv fuel _ hinv1
  exact hinvF.sound p v hv

theorem bfsFrom_complete {α : Type} [DecidableEq α] {adj : α → List α}
    {blocked : α → Bool} {seed : List α} (U : List α)
    (hadjU : ∀ q, ∀ r ∈ adj q, r ∈ U) (hseedU : ∀ q ∈ seed, q ∈ U)
    {fuel : Nat} (hfuel : U.length + 1 ≤ fuel) {p : α} {n : Nat}
    (hreach : ReachIn adj blocked seed p n) :
    ∃ v, v ≤ n ∧ bfsFrom adj blocked seed fuel p = some v := by
  obtain ⟨hinv1, ef1⟩ := bfsInit_inv adj blocked seed
  set s1 : BfsState α := expand blocked seed 0 ⟨fun _ => none, [], []⟩ with hs1
  have hseen1U : ∀ q ∈ s1.seen, q ∈ U := by
    intro q hq
    rcases ef1.seen_new q hq with h1 | h1
    · exact absurd h1 (List.not_mem_nil q)
    · exact hseedU q h1
  have hcount1 := ef1.count
  have hlen1 : s1.seen.length ≤ U.length :=
    nodup_subset_length_le hinv1.seen_nodup hseen1U
  have hmeas1 : s1.queue.length + (U.length - s1.seen.length) ≤ fuel := by
    simp only [List.length_nil] at hcount1
    omega
  have hempty := bfsRun_terminates U hadjU fuel s1 hinv1 hseen1U hmeas1
  obtain ⟨hinvF, hmono⟩ := bfsRun_inv fuel s1 hinv1
  have hseed1 : ∀ q ∈ seed, blocked q = false → s1.dist q = some 1 := by
    intro q hq hbq
    have hq_seen := ef1.covered q hq hbq
    have hsome := (ef1.dist_seen q).mpr hq_seen
    obtain ⟨v, hv⟩ := Option.isSome_iff_exists.mp hsome
    rcases ef1.dist_new q v hv with h1 | ⟨h1, -, -⟩
    · exact absurd h1 (by simp)
    · rw [h1] at hv
      exact hv
  induction hreach with
  | @seedHop q hmem hb =>
    exact ⟨1, le_refl 1, hmono _ _ (hseed1 _ hmem hb)⟩
  | @edgeHop q r m hr hadj hb ih =>
    obtain ⟨vr, hvrle, hvr⟩ := ih
    have hvr' : (bfsRun adj blocked fuel s1).dist r = some vr := hvr
    have hr_seen : r ∈ (bfsRun adj blocked fuel s1).seen :=
      (hinvF.dist_seen r).mp (by rw [hvr']; rfl)
    have hr_notin : r ∉ (bfsRun adj blocked fuel s1).queue.map Prod.fst := by
      rw [hempty]
      exact List.not_mem_nil r
    obtain ⟨dr, dv, h1, h2, h3⟩ :=
      hinvF.processed r hr_seen hr_notin q hadj hb
    have hdr : dr = vr := by
      rw [h1] at hvr'
      exact Option.some_inj.mp hvr'
    refine ⟨dv, by omega, h2⟩

/-- Any unblocked node on the escape node's adjacency list is assigned
distance exactly 1 by a BFS pass, whatever the fuel: it is covered by the
initial expansion of the escape node (distance 0) and distances are never
reassigned. -/
theorem bfsFrom_seed_one {α : Type} [DecidableEq α] {adj : α → List α}
    {blocked : α → Bool} {seed : List α} {fuel : Nat} {q : α}
    (hq : q ∈ seed) (hb : blocked q = false) :
    bfsFrom adj blocked seed fuel q = some 1 := by
  obtain ⟨hinv1, ef1⟩ := bfsInit_inv adj blocked seed
  obtain ⟨-, hmono⟩ := bfsRun_inv fuel _ hinv1
  have hq_seen := ef1.covered q hq hb
  have hsome := (ef1.dist_seen q).mpr hq_seen
  obtain ⟨v, hv⟩ := Option.isSome_iff_exists.mp hsome
  have hv1 : (expand blocked seed 0 ⟨fun _ => none, [], []⟩).dist q = some 1 := by
    rcases ef1.dist_new q v hv with h1 | ⟨h1, -, -⟩
    · exact absurd h1 (by simp)
    · rw [h1] at hv
      exact hv
  exact hmono q 1 hv1

/-- `Board.updateDistances` on a freshly built board: all distances reset
to `Infinity`, then BFS over `adjacent` from the escape node (distance 0),
whose adjacency list one run of `createGraph` filled with the ring cells.
The fuel is one more than the number of grid cells, which
`bfsRun_terminates` proves sufficient for the queue to empty. -/
def updateDistances (w h : Int) (blocked : Pos → Bool) : Pos → Option Nat :=
  bfsFrom (adjacent w h) blocked (boundaryCells w h)
    ((gridCells w h).length + 1)

/-- Reachability from the escape node through unblocked grid cells, in a
given number of hops: ring cells are one hop from escape. -/
def reachesEscape (w h : Int) (blocked : Pos → Bool) : Pos → Nat → Prop :=
  ReachIn (adjacent w h) blocked (boundaryCells w h)

theorem adjacent_subset_grid (w h : Int) (q : Pos) :
    ∀ r ∈ adjacent w h q, r ∈ gridCells w h := by
  intro r hr
  exact mem_gridCells.mpr (List.mem_filter.mp hr).2

theorem boundary_subset_grid (w h : Int) :
    ∀ q ∈ boundaryCells w h, q ∈ gridCells w h := by
  intro q hq
  exact (List.mem_filter.mp hq).1

theorem updateDistances_sound {w h : Int} {blocked : Pos → Bool} {p : Pos}
    {v : Nat} (hv : updateDistances w h blocked p = some v) :
    reachesEscape w h blocked p v :=
  bfsFrom_sound hv

theorem updateDistances_complete {w h : Int} {blocked : Pos → Bool} {p : Pos}
    {n : Nat} (hr : reachesEscape w h blocked p n) :
    ∃ v, v ≤ n ∧ updateDistances w h blocked p = some v :=
  bfsFrom_complete (gridCells w h) (adjacent_subset_grid w h)
    (boundary_subset_grid w h) (le_refl _) hr

theorem updateDistances_some_unblocked {w h : Int} {blocked : Pos → Bool}
    {p : Pos} {v : Nat} (hv : updateDistances w h blocked p = some v) :
    blocked p = false :=
  ReachIn_blocked_false (updateDistances_sound hv)

/-- C1: for every assignment of blocked flags over the constructed grid,
after one run of the Distance Engine every unblocked cell reachable from
the escape node through unblocked cells has `distance` equal to the
minimum number of hops over such paths, and every blocked or unreachable
cell has `distance = Infinity` (embedded as `none`). -/
theorem C1_distance_engine_correct (w h : Int) (blocked : Pos → Bool)
    (p : Pos) (hp : inGrid w h p = true) :
    (∀ v, updateDistances w h blocked p = some v →
      reachesEscape w h blocked p v ∧
        ∀ n, reachesEscape w h blocked p n → v ≤ n) ∧
    (blocked p = true → updateDistances w h blocked p = none) ∧
    ((∀ n, ¬ reachesEscape w h blocked p n) →
      updateDistances w h blocked p = none) ∧
    (∀ n, reachesEscape w h blocked p n →
      ∃ v, updateDistances w h blocked p = some v) := by
  refine ⟨?_, ?_, ?_, ?_⟩
  · intro v hv
    refine ⟨updateDistances_sound hv, ?_⟩
    intro n hn
    obtain ⟨v2, hv2le, hv2⟩ := updateDistances_complete hn
    rw [hv] at hv2
    have := Option.some_inj.mp hv2
    omega
  · intro hb
    cases hd : updateDistances w h blocked p with
    | none => rfl
    | some v =>
      have hunb := updateDistances_some_unblocked hd
      rw [hb] at hunb
      exact absurd hunb (by simp)
  · intro hnr
    cases hd : updateDistances w h blocked p with
    | none => rfl
    | some v => exact absurd (updateDistances_sound hd) (hnr v)
  · intro n hn
    obtain ⟨v, -, hv⟩ := updateDistances_complete hn
    exact ⟨v, hv⟩

/-- Witness for `C1_distance_engine_correct`: the empty 5x5 board at the
centre cell (2,2). -/
theorem C1_distance_engine_correct_witness :
    (∀ v, updateDistances 5 5 (fun _ => false) ((2 : Int), (2 : Int)) = some v →
      reachesEscape 5 5 (fun _ => false) ((2 : Int), (2 : Int)) v ∧
        ∀ n, reachesEscape 5 5 (fun _ => false) ((2 : Int), (2 : Int)) n →
          v ≤ n) ∧
    ((fun (_ : Pos) => false) ((2 : Int), (2 : Int)) = true →
      updateDistances 5 5 (fun _ => false) ((2 : Int), (2 : Int)) = none) ∧
    ((∀ n, ¬ reachesEscape 5 5 (fun _ => false) ((2 : Int), (2 : Int)) n) →
      updateDistances 5 5 (fun _ => false) ((2 : Int), (2 : Int)) = none) ∧
    (∀ n, reachesEscape 5 5 (fun _ => false) ((2 : Int), (2 : Int)) n →
      ∃ v, updateDistances 5 5 (fun _ => false) ((2 : Int), (2 : Int)) = some v) :=
  C1_distance_engine_correct 5 5 (fun _ => false) ((2 : Int), (2 : Int))
    (by decide)

/-! ### Move Policy and Game State Machine
(`Board.nextStepForCat`, `Board.moveCat`, `Spot.handleClick`,
`Board.setInitialBlocks`) -/

/-- JavaScript `Math.min` on two embedded distances: `Infinity` (`none`)
is the identity. -/
def optMin : Option Nat → Option Nat → Option Nat
  | none, b => b
  | some a, none => some a
  | some a, some b => some (min a b)

/-- `Math.min(...distances)`: fold of `optMin` with identity `Infinity`
(`Math.min()` of no arguments is `Infinity`). -/
def jsMin (l : List (Option Nat)) : Option Nat :=
  l.foldl optMin none

theorem optMin_eq_or (a b : Option Nat) : optMin a b = a ∨ optMin a b = b := by
  match a, b with
  | none, b => exact Or.inr rfl
  | some a, none => exact Or.inl rfl
  | some a, some b =>
    rcases Nat.le_total a b with hab | hab
    · exact Or.inl (by simp [optMin, Nat.min_eq_left hab])
    · exact Or.inr (by simp [optMin, Nat.min_eq_right hab])

theorem foldl_optMin_mem :
    ∀ (l : List (Option Nat)) (acc : Option Nat),
      l.foldl optMin acc = acc ∨ l.foldl optMin acc ∈ l := by
  intro l
  induction l with
  | nil => exact fun acc => Or.inl rfl
  | cons x l ih =>
    intro acc
    rcases ih (optMin acc x) with h1 | h1
    · rw [List.foldl_cons]
      rcases optMin_eq_or acc x with h2 | h2
      · exact Or.inl (h1.trans h2)
      · exact Or.inr (by rw [h1, h2]; exact List.mem_cons_self _ _)
    · exact Or.inr (List.mem_cons_of_mem _ h1)

theorem jsMin_mem {l : List (Option Nat)} (hne : l ≠ []) : jsMin l ∈ l := by
  match l with
  | [] => exact absurd rfl hne
  | x :: l2 =>
    have h1 : jsMin (x :: l2) = l2.foldl optMin x := rfl
    rw [h1]
    rcases foldl_optMin_mem l2 x with h | h
    · rw [h]
      exact List.mem_cons_self _ _
    · exact List.mem_cons_of_mem _ h

theorem optMin_eq_none {a b : Option Nat} :
    optMin a b = none ↔ a = none ∧ b = none := by
  match a, b with
  | none, none => simp [optMin]
  | none, some b => simp [optMin]
  | some a, none => simp [optMin]
  | some a, some b => simp [optMin]

theorem foldl_optMin_none :
    ∀ (l : List (Option Nat)) (acc : Option Nat),
      l.foldl optMin acc = none ↔ acc = none ∧ ∀ x ∈ l, x = none := by
  intro l
  induction l with
  | nil => intro acc; simp
  | cons x l ih =>
    intro acc
    rw [List.foldl_cons, ih (optMin acc x), optMin_eq_none]
    constructor
    · rintro ⟨⟨h1, h2⟩, h3⟩
      refine ⟨h1, ?_⟩
      intro y hy
      rcases List.mem_cons.mp hy with rfl | hy2
      · exact h2
      · exact h3 y hy2
    · rintro ⟨h1, h2⟩
      exact ⟨⟨h1, h2 x (List.mem_cons_self _ _)⟩,
        fun y hy => h2 y (List.mem_cons_of_mem _ hy)⟩

theorem jsMin_eq_none {l : List (Option Nat)} :
    jsMin l = none ↔ ∀ x ∈ l, x = none := by
  rw [jsMin, foldl_optMin_none]
  exact ⟨fun h => h.2, fun h => ⟨rfl, h⟩⟩

/-- Mutable per-turn game state: the blocked flags and the cat's cell. -/
structure GameState where
  blocked : Pos → Bool
  cat : Pos

/-- What a cat turn reports through `gameEnd`: a player win, a player
loss, or nothing (the game continues). -/
inductive Outcome
  | win
  | lose
  | cont
deriving DecidableEq

/-- The candidate list of `Board.nextStepForCat`: the cat's neighbours
whose freshly recomputed distance equals the minimum
(`Math.min(...distancesNextToCat)`) over all neighbours. -/
def catPaths (w h : Int) (g : GameState) : List Pos :=
  (adjacent w h g.cat).filter fun n =>
    updateDistances w h g.blocked n ==
      jsMin ((adjacent w h g.cat).map (updateDistances w h g.blocked))

/-- `Board.nextStepForCat`: recompute distances, filter the best
neighbours, and return the one at the random index; `choice` embeds the
process-wide random draw (`Math.floor(Math.random() * paths.length)`
ranges over `0 .. paths.length - 1`, which `choice % paths.length`
ranges over too).  `none` embeds the `undefined` of an out-of-range
access on an empty candidate list. -/
def nextStepForCat (w h : Int) (g : GameState) (choice : Nat) : Option Pos :=
  (catPaths w h g)[choice % (catPaths w h g).length]?

/-- `Board.moveCat`: pick the move; an `Infinity` distance reports a win
with the cat unmoved; otherwise the cat relocates, and landing on a cell
of distance 1 reports a loss.  `none` embeds the `TypeError` the source
would raise reading `move.distance` off `undefined`. -/
def moveCat (w h : Int) (g : GameState) (choice : Nat) :
    Option (GameState × Outcome) :=
  match nextStepForCat w h g choice with
  | none => none
  | some move =>
    if updateDistances w h g.blocked move = none then some (g, Outcome.win)
    else if updateDistances w h g.blocked move = some 1 then
      some ({ g with cat := move }, Outcome.lose)
    else some ({ g with cat := move }, Outcome.cont)

/-- Blocking one spot (`this.blocked = true` in `handleClick`). -/
def blockCell (g : GameState) (p : Pos) : GameState :=
  { g with blocked := fun q => if q = p then true else g.blocked q }

/-- `Spot.handleClick`: a click on the cat's spot or an already blocked
spot returns immediately; otherwise the spot is blocked and exactly one
cat turn runs.  The reported outcome is dropped from the state because
the source's `gameEnd` only animates a message and records nothing. -/
def handleClick (w h : Int) (g : GameState) (p : Pos) (choice : Nat) :
    Option GameState :=
  if g.cat = p ∨ g.blocked p = true then some g
  else (moveCat w h (blockCell g p) choice).map Prod.fst

/-- One iteration of the `setInitialBlocks` loop body: the drawn spot is
blocked only when it exists in the grid, is not yet blocked, and is not
the cat's spot (otherwise the loop draws again; the embedded `picks` list
carries every draw). -/
def placeBlock (w h : Int) (cat : Pos) (blocked : Pos → Bool) (p : Pos) :
    Pos → Bool :=
  if inGrid w h p = true ∧ blocked p = false ∧ cat ≠ p then
    fun q => if q = p then true else blocked q
  else blocked

/-- `Board.setInitialBlocks`, folded over the random draws, starting from
the all-unblocked fresh grid. -/
def setInitialBlocks (w h : Int) (cat : Pos) (picks : List Pos) :
    Pos → Bool :=
  picks.foldl (placeBlock w h cat) fun _ => false

/-- The state of a freshly constructed `Board`: the cat where
`setInitialCat` put it, the initial blocks drawn by `setInitialBlocks`. -/
def initialState (w h : Int) (cat : Pos) (picks : List Pos) : GameState :=
  { blocked := setInitialBlocks w h cat picks, cat := cat }

/-- States reachable from a given state by player clicks, each click
running the cat turn it triggers. -/
inductive Reachable (w h : Int) : GameState → GameState → Prop
  | refl (g : GameState) : Reachable w h g g
  | click {g g1 g2 : GameState} (p : Pos) (choice : Nat) :
      Reachable w h g g1 → handleClick w h g1 p choice = some g2 →
      Reachable w h g g2

/-- The six neighbours of the cell (2,2) on the 5x5 board, all blocked:
the configuration refuting C2 as stated. -/
def enclosedBlocks : Pos → Bool := fun q =>
  ([((1 : Int), (1 : Int)), ((2 : Int), (1 : Int)), ((1 : Int), (2 : Int)),
    ((3 : Int), (2 : Int)), ((1 : Int), (3 : Int)), ((2 : Int), (3 : Int))] :
      List Pos).contains q

/-- C2 as stated is false: with every neighbour of the cat blocked, every
neighbour's distance is `Infinity`, `Math.min` is `Infinity`, the filter
keeps all six blocked neighbours, and the policy returns the blocked cell
(1,1). -/
theorem C2_move_legality_counterexample :
    adjacent 5 5 ((2 : Int), (2 : Int)) ≠ [] ∧
      nextStepForCat 5 5 ⟨enclosedBlocks, ((2 : Int), (2 : Int))⟩ 0 =
        some ((1 : Int), (1 : Int)) ∧
      enclosedBlocks ((1 : Int), (1 : Int)) = true := by
  refine ⟨by decide, by decide, by decide⟩

/-- C2 amended: whenever the cat has at least one neighbour the Move
Policy does return a cell, that cell is always a member of
`cat.adjacent`, and it is unblocked whenever at least one neighbour has a
finite distance; when every neighbour's distance is `Infinity` the
returned cell may be blocked (the counterexample), though `moveCat` then
reports the win without moving onto it. -/
theorem C2_move_legality (w h : Int) (g : GameState) (choice : Nat)
    (hne : adjacent w h g.cat ≠ []) :
    ∃ move, nextStepForCat w h g choice = some move ∧
      move ∈ adjacent w h g.cat ∧
      ((∃ n ∈ adjacent w h g.cat,
          updateDistances w h g.blocked n ≠ none) →
        g.blocked move = false) := by
  have hmap_ne : (adjacent w h g.cat).map (updateDistances w h g.blocked) ≠ [] := by
    intro hc
    exact hne (List.map_eq_nil_iff.mp hc)
  have hmin_mem := jsMin_mem hmap_ne
  obtain ⟨n₀, hn₀, hdn₀⟩ := List.mem_map.mp hmin_mem
  have hn₀_paths : n₀ ∈ catPaths w h g := by
    rw [catPaths]
    refine List.mem_filter.mpr ⟨hn₀, ?_⟩
    rw [hdn₀]
    simp
  have hpaths_ne : catPaths w h g ≠ [] := by
    intro hc
    rw [hc] at hn₀_paths
    exact absurd hn₀_paths (List.not_mem_nil n₀)
  have hlen_pos : 0 < (catPaths w h g).length := List.length_pos.mpr hpaths_ne
  have hidx : choice % (catPaths w h g).length < (catPaths w h g).length :=
    Nat.mod_lt _ hlen_pos
  obtain ⟨move, hmove⟩ : ∃ move,
      (catPaths w h g)[choice % (catPaths w h g).length]? = some move :=
    ⟨(catPaths w h g).get ⟨_, hidx⟩, List.getElem?_eq_getElem hidx⟩
  have hmove_paths : move ∈ catPaths w h g := by
    have := List.getElem?_mem hmove
    exact this
  have hmove_adj : move ∈ adjacent w h g.cat :=
    List.mem_of_mem_filter hmove_paths
  refine ⟨move, hmove, hmove_adj, ?_⟩
  rintro ⟨n₁, hn₁, hdn₁⟩
  have hmin_ne : jsMin ((adjacent w h g.cat).map (updateDistances w h g.blocked)) ≠
      none := by
    intro hc
    exact hdn₁ (jsMin_eq_none.mp hc _ (List.mem_map.mpr ⟨n₁, hn₁, rfl⟩))
  have hmove_min : updateDistances w h g.blocked move =
      jsMin ((adjacent w h g.cat).map (updateDistances w h g.blocked)) := by
    have hf : (updateDistances w h g.blocked move ==
        jsMin ((adjacent w h g.cat).map (updateDistances w h g.blocked))) =
          true :=
      (List.mem_filter.mp hmove_paths).2
    exact eq_of_beq hf
  have hmove_ne : updateDistances w h g.blocked move ≠ none := by
    rw [hmove_min]
    exact hmin_ne
  obtain ⟨k, hk⟩ := Option.ne_none_iff_exists'.mp hmove_ne
  exact updateDistances_some_unblocked hk

/-- Witness for `C2_move_legality`: the empty 5x5 board, cat at (2,2),
first random draw. -/
theorem C2_move_legality_witness :
    ∃ move, nextStepForCat 5 5 ⟨fun _ => false, ((2 : Int), (2 : Int))⟩ 0 =
        some move ∧
      move ∈ adjacent 5 5 ((2 : Int), (2 : Int)) ∧
      ((∃ n ∈ adjacent 5 5 ((2 : Int), (2 : Int)),
          updateDistances 5 5 (fun _ => false) n ≠ none) →
        (fun (_ : Pos) => false) move = false) :=
  C2_move_legality 5 5 ⟨fun _ => false, ((2 : Int), (2 : Int))⟩ 0 (by decide)

/-- C3: when the selected move's distance is `Infinity` the cat turn
reports a win with the cat unmoved; when the cat moves onto a cell whose
distance is 1 it reports a loss; in all other cases the game continues
with the cat relocated to the selected cell. -/
theorem C3_terminal_correct (w h : Int) (g : GameState) (choice : Nat)
    (move : Pos) (hmv : nextStepForCat w h g choice = some move) :
    (updateDistances w h g.blocked move = none →
      moveCat w h g choice = some (g, Outcome.win)) ∧
    (updateDistances w h g.blocked move = some 1 →
      moveCat w h g choice = some ({ g with cat := move }, Outcome.lose)) ∧
    (∀ k, updateDistances w h g.blocked move = some k → k ≠ 1 →
      moveCat w h g choice = some ({ g with cat := move }, Outcome.cont)) := by
  refine ⟨?_, ?_, ?_⟩
  · intro hd
    rw [moveCat, hmv]
    simp only [hd]
    rfl
  · intro hd
    rw [moveCat, hmv]
    simp only [hd]
    rfl
  · intro k hd hk1
    rw [moveCat, hmv]
    simp only [hd]
    rw [if_neg (by simp), if_neg (by simp [hk1])]

/-- Witness for `C3_terminal_correct`: the empty 5x5 board with the cat
at (2,1); the policy picks (2,0), whose distance is 1, so the turn
reports the loss with the cat moved there. -/
theorem C3_terminal_correct_witness :
    (updateDistances 5 5 (fun _ => false) ((2 : Int), (0 : Int)) = none →
      moveCat 5 5 ⟨fun _ => false, ((2 : Int), (1 : Int))⟩ 0 =
        some (⟨fun _ => false, ((2 : Int), (1 : Int))⟩, Outcome.win)) ∧
    (updateDistances 5 5 (fun _ => false) ((2 : Int), (0 : Int)) = some 1 →
      moveCat 5 5 ⟨fun _ => false, ((2 : Int), (1 : Int))⟩ 0 =
        some ({ (⟨fun _ => false, ((2 : Int), (1 : Int))⟩ : GameState) with
          cat := ((2 : Int), (0 : Int)) }, Outcome.lose)) ∧
    (∀ k, updateDistances 5 5 (fun _ => false) ((2 : Int), (0 : Int)) = some k →
      k ≠ 1 →
      moveCat 5 5 ⟨fun _ => false, ((2 : Int), (1 : Int))⟩ 0 =
        some ({ (⟨fun _ => false, ((2 : Int), (1 : Int))⟩ : GameState) with
          cat := ((2 : Int), (0 : Int)) }, Outcome.cont)) :=
  C3_terminal_correct 5 5 ⟨fun _ => false, ((2 : Int), (1 : Int))⟩ 0
    ((2 : Int), (0 : Int)) (by decide)

/-- C9: a click on the cat's own cell or an already blocked cell is a
no-op (the unchanged state is returned and no cat turn runs), not an
exception; a click on any other cell sets exactly that one cell's blocked
flag and triggers exactly one cat turn on the updated state. -/
theorem C9_click_handling (w h : Int) (g : GameState) (p : Pos)
    (choice : Nat) :
    ((g.cat = p ∨ g.blocked p = true) →
      handleClick w h g p choice = some g) ∧
    (g.cat ≠ p → g.blocked p = false →
      handleClick w h g p choice =
        (moveCat w h (blockCell g p) choice).map Prod.fst ∧
      (blockCell g p).blocked p = true ∧
      (∀ q, q ≠ p → (blockCell g p).blocked q = g.blocked q) ∧
      (blockCell g p).cat = g.cat) := by
  constructor
  · intro hlegal
    rw [handleClick, if_pos hlegal]
  · intro hcat hbl
    refine ⟨?_, ?_, ?_, rfl⟩
    · rw [handleClick, if_neg]
      rintro (hc | hc)
      · exact hcat hc
      · rw [hbl] at hc
        exact absurd hc (by simp)
    · have : (blockCell g p).blocked p = if p = p then true else g.blocked p :=
        rfl
      rw [this, if_pos rfl]
    · intro q hq
      have : (blockCell g p).blocked q = if q = p then true else g.blocked q :=
        rfl
      rw [this, if_neg hq]

/-- Witness for `C9_click_handling` on the empty 5x5 board with the cat
at (2,2): clicking the cat's cell is a no-op, and clicking (0,2) blocks
exactly that cell and runs one cat turn. -/
theorem C9_click_handling_witness :
    handleClick 5 5 ⟨fun _ => false, ((2 : Int), (2 : Int))⟩
        ((2 : Int), (2 : Int)) 0 =
      some ⟨fun _ => false, ((2 : Int), (2 : Int))⟩ ∧
    (handleClick 5 5 ⟨fun _ => false, ((2 : Int), (2 : Int))⟩
        ((0 : Int), (2 : Int)) 0 =
      (moveCat 5 5
        (blockCell ⟨fun _ => false, ((2 : Int), (2 : Int))⟩
          ((0 : Int), (2 : Int))) 0).map Prod.fst ∧
      (blockCell ⟨fun _ => false, ((2 : Int), (2 : Int))⟩
        ((0 : Int), (2 : Int))).blocked ((0 : Int), (2 : Int)) = true ∧
      (∀ q, q ≠ ((0 : Int), (2 : Int)) →
        (blockCell ⟨fun _ => false, ((2 : Int), (2 : Int))⟩
          ((0 : Int), (2 : Int))).blocked q =
          (fun (_ : Pos) => false) q) ∧
      (blockCell ⟨fun _ => false, ((2 : Int), (2 : Int))⟩
        ((0 : Int), (2 : Int))).cat = ((2 : Int), (2 : Int))) :=
  ⟨(C9_click_handling 5 5 ⟨fun _ => false, ((2 : Int), (2 : Int))⟩
      ((2 : Int), (2 : Int)) 0).1 (Or.inl rfl),
    (C9_click_handling 5 5 ⟨fun _ => false, ((2 : Int), (2 : Int))⟩
      ((0 : Int), (2 : Int)) 0).2 (by decide) rfl⟩

theorem setInitialBlocks_cat_unblocked (w h : Int) (cat : Pos)
    (picks : List Pos) : setInitialBlocks w h cat picks cat = false := by
  rw [setInitialBlocks]
  have hfold : ∀ (l : List Pos) (blocked : Pos → Bool), blocked cat = false →
      (l.foldl (placeBlock w h cat) blocked) cat = false := by
    intro l
    induction l with
    | nil => exact fun blocked hb => hb
    | cons p l ih =>
      intro blocked hb
      rw [List.foldl_cons]
      apply ih
      rw [placeBlock]
      split
      · rename_i hcond
        have hstep : (fun q => if q = p then true else blocked q) cat =
            (if cat = p then true else blocked cat) := rfl
        rw [hstep, if_neg hcond.2.2]
        exact hb
      · exact hb
  exact hfold picks (fun _ => false) rfl

theorem moveCat_cat_unblocked {w h : Int} {g : GameState} {choice : Nat}
    {g2 : GameState} {out : Outcome}
    (hmc : moveCat w h g choice = some (g2, out))
    (hcat : g.blocked g.cat = false) :
    g2.blocked g2.cat = false ∧ g2.blocked = g.blocked := by
  rw [moveCat] at hmc
  cases hns : nextStepForCat w h g choice with
  | none =>
    rw [hns] at hmc
    exact absurd hmc (by simp)
  | some move =>
    rw [hns] at hmc
    have hmc2 : (if updateDistances w h g.blocked move = none then
        some (g, Outcome.win)
      else if updateDistances w h g.blocked move = some 1 then
        some ({ g with cat := move }, Outcome.lose)
      else some ({ g with cat := move }, Outcome.cont)) = some (g2, out) := hmc
    by_cases hd0 : updateDistances w h g.blocked move = none
    · rw [if_pos hd0, Option.some_inj, Prod.mk.injEq] at hmc2
      obtain ⟨rfl, -⟩ := hmc2
      exact ⟨hcat, rfl⟩
    · obtain ⟨k, hk⟩ := Option.ne_none_iff_exists'.mp hd0
      have hunb : g.blocked move = false := updateDistances_some_unblocked hk
      rw [if_neg hd0] at hmc2
      split_ifs at hmc2 with h1
      · rw [Option.some_inj, Prod.mk.injEq] at hmc2
        obtain ⟨rfl, -⟩ := hmc2
        exact ⟨hunb, rfl⟩
      · rw [Option.some_inj, Prod.mk.injEq] at hmc2
        obtain ⟨rfl, -⟩ := hmc2
        exact ⟨hunb, rfl⟩

theorem handleClick_cat_unblocked {w h : Int} {g g2 : GameState} {p : Pos}
    {choice : Nat} (hclick : handleClick w h g p choice = some g2)
    (hcat : g.blocked g.cat = false) : g2.blocked g2.cat = false := by
  rw [handleClick] at hclick
  split_ifs at hclick with hlegal
  · rw [Option.some_inj] at hclick
    rw [← hclick]
    exact hcat
  · push_neg at hlegal
    obtain ⟨hc1, hc2⟩ := hlegal
    cases hmc : moveCat w h (blockCell g p) choice with
    | none =>
      rw [hmc] at hclick
      exact absurd hclick (by simp)
    | some r =>
      rw [hmc] at hclick
      obtain ⟨gr, out⟩ := r
      have hg2 : gr = g2 := by simpa using hclick
      have hcat' : (blockCell g p).blocked (blockCell g p).cat = false := by
        have hbc : (blockCell g p).blocked g.cat =
            (if g.cat = p then true else g.blocked g.cat) := rfl
        have hcc : (blockCell g p).cat = g.cat := rfl
        rw [hcc, hbc, if_neg hc1]
        exact hcat
      obtain ⟨hfin, -⟩ := moveCat_cat_unblocked hmc hcat'
      rw [← hg2]
      exact hfin

/-- C7: in every state reachable from a freshly constructed board by any
sequence of player clicks and the cat turns they trigger, the cell the
cat occupies is unblocked: initial block placement skips the cat's spot,
a click on the cat's spot is rejected, and the cat only relocates to
cells whose freshly recomputed distance is finite, hence unblocked. -/
theorem C7_cat_cell_unblocked (w h : Int) (cat : Pos) (picks : List Pos)
    (g : GameState)
    (hreach : Reachable w h (initialState w h cat picks) g) :
    g.blocked g.cat = false := by
  induction hreach with
  | refl => exact setInitialBlocks_cat_unblocked w h cat picks
  | click p choice hr hcl ih => exact handleClick_cat_unblocked hcl ih

/-- Witness for `C7_cat_cell_unblocked`: the freshly constructed 5x5
board with the cat at (2,2) and one initial block drawn at (0,2). -/
theorem C7_cat_cell_unblocked_witness :
    (initialState 5 5 ((2 : Int), (2 : Int)) [((0 : Int), (2 : Int))]).blocked
      (initialState 5 5 ((2 : Int), (2 : Int)) [((0 : Int), (2 : Int))]).cat =
      false :=
  C7_cat_cell_unblocked 5 5 ((2 : Int), (2 : Int)) [((0 : Int), (2 : Int))] _
    (Reachable.refl _)

/-- C8 as stated is false: after a cat turn that reports the loss (the
cat moved to (2,0), a cell of distance 1), a further click on the
unblocked cell (2,2) is still accepted: it sets that cell's blocked flag
(and runs another cat turn) instead of leaving the state unchanged. -/
theorem C8_terminal_lockout_counterexample :
    moveCat 5 5 ⟨fun _ => false, ((2 : Int), (1 : Int))⟩ 0 =
      some (⟨fun _ => false, ((2 : Int), (0 : Int))⟩, Outcome.lose) ∧
    (⟨fun _ => false, ((2 : Int), (0 : Int))⟩ : GameState).blocked
      ((2 : Int), (2 : Int)) = false ∧
    (handleClick 5 5 ⟨fun _ => false, ((2 : Int), (0 : Int))⟩
        ((2 : Int), (2 : Int)) 0).map
      (fun g => g.blocked ((2 : Int), (2 : Int))) = some true := by
  refine ⟨by rfl, rfl, by decide⟩

/-- C8 amended: reaching a terminal report does not lock the board: the
click handler consults only the cat position and the blocked flags, so
after a turn that reported win or lose a click on any unblocked non-cat
cell is still accepted — it blocks that cell and triggers another cat
turn — until the external reset constructs a new `Board`. -/
theorem C8_no_terminal_lockout (w h : Int) (g0 g : GameState)
    (choice c2 : Nat) (out : Outcome)
    (hterm : moveCat w h g0 choice = some (g, out))
    (hout : out = Outcome.win ∨ out = Outcome.lose)
    (p : Pos) (hcat : g.cat ≠ p) (hbl : g.blocked p = false) :
    handleClick w h g p c2 =
      (moveCat w h (blockCell g p) c2).map Prod.fst ∧
    (blockCell g p).blocked p = true := by
  constructor
  · rw [handleClick, if_neg]
    rintro (hc | hc)
    · exact hcat hc
    · rw [hbl] at hc
      exact absurd hc (by simp)
  · have hstep : (blockCell g p).blocked p =
        (if p = p then true else g.blocked p) := rfl
    rw [hstep, if_pos rfl]

/-- Witness for `C8_no_terminal_lockout`: the 5x5 lose scenario of the
counterexample, clicking (2,2) after the loss was reported. -/
theorem C8_no_terminal_lockout_witness :
    handleClick 5 5 ⟨fun _ => false, ((2 : Int), (0 : Int))⟩
        ((2 : Int), (2 : Int)) 0 =
      (moveCat 5 5
        (blockCell ⟨fun _ => false, ((2 : Int), (0 : Int))⟩
          ((2 : Int), (2 : Int))) 0).map Prod.fst ∧
    (blockCell ⟨fun _ => false, ((2 : Int), (0 : Int))⟩
      ((2 : Int), (2 : Int))).blocked ((2 : Int), (2 : Int)) = true :=
  C8_no_terminal_lockout 5 5 ⟨fun _ => false, ((2 : Int), (1 : Int))⟩
    ⟨fun _ => false, ((2 : Int), (0 : Int))⟩ 0 0 Outcome.lose (by rfl)
    (Or.inr rfl) ((2 : Int), (2 : Int)) (by decide) rfl

/-- The escape node (`boundary`) is module-level state: one run of
`createGraph` for a board appends that board's ring cells — tagged here
with the board's identity, since each construction allocates fresh spot
objects — to whatever the list already holds; nothing ever clears it. -/
def createGraphBoundary (prior : List (Nat × Pos)) (bid : Nat) (w h : Int) :
    List (Nat × Pos) :=
  prior ++ (boundaryCells w h).map fun p => (bid, p)

/-- Cell-to-cell adjacency among tagged spots after a reset: every
`Board` construction allocates fresh `Spot` objects, so `createGraph`
links spots only within their own board; the tag is the board's
identity. -/
def adjacentTagged (w h : Int) (c : Nat × Pos) : List (Nat × Pos) :=
  (adjacent w h c.2).map fun p => (c.1, p)

/-- The module-level escape node's adjacency list after the reset
listener has run: the page-load `new Board(11, 11, 6)` appended board 1's
ring cells, the reset's `new Board(11, 11, 6)` appended board 2's, and
nothing cleared the list in between. -/
def boundaryAfterReset : List (Nat × Pos) :=
  createGraphBoundary (createGraphBoundary [] 1 11 11) 2 11 11

/-- A `Board.updateDistances` pass run after the reset: the BFS is seeded
with the escape node's accumulated adjacency list `boundaryAfterReset`,
not with the new board's ring cells alone.  Spots the BFS never visits
are reported as `Infinity`: for board 2's spots that is exactly the
source's reset loop; the discarded board 1's never-visited spots keep
stale fields in the source, which the new game never reads. -/
def updateDistancesAfterReset (blocked : Nat × Pos → Bool) :
    Nat × Pos → Option Nat :=
  bfsFrom (adjacentTagged 11 11) blocked boundaryAfterReset
    (2 * (gridCells 11 11).length + 1)

/-- C10: the reset listener's second `new Board(11, 11, 6)` appends the
new board's ring cells to the same module-level escape node without
clearing it — every ring cell of the first board stays in the list, ahead
of the second board's — and a later BFS pass starts from this accumulated
list: the post-reset Distance Engine is seeded with `boundaryAfterReset`,
so it still assigns distance 1 to every unblocked ring cell of the
discarded first board, exactly as to the new board's. -/
theorem C10_boundary_accumulates (blocked : Nat × Pos → Bool) :
    boundaryAfterReset =
      createGraphBoundary [] 1 11 11 ++
        (boundaryCells 11 11).map (fun p => (2, p)) ∧
    (∀ c ∈ createGraphBoundary [] 1 11 11, c ∈ boundaryAfterReset) ∧
    (∀ p ∈ boundaryCells 11 11,
      (1, p) ∈ boundaryAfterReset ∧ (2, p) ∈ boundaryAfterReset) ∧
    (∀ p ∈ boundaryCells 11 11, blocked (1, p) = false →
      updateDistancesAfterReset blocked (1, p) = some 1) ∧
    (∀ p ∈ boundaryCells 11 11, blocked (2, p) = false →
      updateDistancesAfterReset blocked (2, p) = some 1) := by
  have hmem1 : ∀ p ∈ boundaryCells 11 11, ((1 : Nat), p) ∈ boundaryAfterReset := by
    intro p hp
    exact List.mem_append_left _
      (List.mem_append_right _ (List.mem_map.mpr ⟨p, hp, rfl⟩))
  have hmem2 : ∀ p ∈ boundaryCells 11 11, ((2 : Nat), p) ∈ boundaryAfterReset := by
    intro p hp
    exact List.mem_append_right _ (List.mem_map.mpr ⟨p, hp, rfl⟩)
  refine ⟨rfl, ?_, ?_, ?_, ?_⟩
  · intro c hc
    exact List.mem_append_left _ hc
  · intro p hp
    exact ⟨hmem1 p hp, hmem2 p hp⟩
  · intro p hp hb
    exact bfsFrom_seed_one (hmem1 p hp) hb
  · intro p hp hb
    exact bfsFrom_seed_one (hmem2 p hp) hb

/-- Witness for `C10_boundary_accumulates` on the all-unblocked post-reset
world: the first board's ring cell (1,0) is still on the escape node's
adjacency list after the reset, and the post-reset BFS pass assigns it
distance 1. -/
theorem C10_boundary_accumulates_witness :
    ((1 : Nat), ((1 : Int), (0 : Int))) ∈ boundaryAfterReset ∧
      updateDistancesAfterReset (fun _ => false)
        ((1 : Nat), ((1 : Int), (0 : Int))) = some 1 :=
  ⟨((C10_boundary_accumulates (fun _ => false)).2.2.1
      ((1 : Int), (0 : Int)) (by decide)).1,
    (C10_boundary_accumulates (fun _ => false)).2.2.2.1
      ((1 : Int), (0 : Int)) (by decide) rfl⟩

end ChatNoir
